import Mathlib

/-!
Shallow embedding of `schengen.py` (ShengenTripper).

The database is modelled as a `Ledger`: a list of user rows
`(id, username)` and a list of presence rows `(user_id, date)`.
Calendar dates are modelled as integers (days since an epoch, matching
Python's `date.toordinal()`); adding a `timedelta(days = n)` is integer
addition, and date comparison is integer comparison.  SQL `SELECT`
queries become list filters over the presence rows; `ORDER BY date DESC
... first()` on the presence table becomes the maximum date; `INSERT`
appends a row.  SQL row counting (`func.count`) counts matching rows,
so it is modelled by `List.length` of the filter, which also reproduces
the behaviour on tables holding duplicate rows.
-/

structure Ledger where
  users : List (Nat × String)
  presence : List (Nat × Int)
deriving Repr, DecidableEq

/-- `present` (schengen.py, lines 56-62): whether the user was in the
Schengen zone on the given date — the count of presence rows with this
exact date and user id is positive. -/
def present (l : Ledger) (uid : Nat) (at_ : Int) : Bool :=
  0 < (l.presence.filter fun p => p.2 == at_ && p.1 == uid).length

/-- The maximum of a list of dates, `none` on the empty list.  Used to
model `ORDER BY date DESC ... first()`. -/
def maxDate : List Int → Option Int
  | [] => none
  | d :: ds =>
    match maxDate ds with
    | none => some d
    | some m => some (max d m)

/-- `get_start` (schengen.py, lines 65-73): the user's presence row with
the most recent date (`ORDER BY date DESC`, first row), `none` when the
user has no presence rows — in that case SQLAlchemy's `first()` returns
`None`. Only the row's date is ever used, so the model returns the date. -/
def get_start (l : Ledger) (uid : Nat) : Option Int :=
  maxDate ((l.presence.filter fun p => p.1 == uid).map Prod.snd)

/-- `presence_count_180` (schengen.py, lines 76-87): the number of
presence rows for the user whose date lies in the closed interval
`[at - 179, at]`. -/
def presence_count_180 (l : Ledger) (uid : Nat) (at_ : Int) : Nat :=
  (l.presence.filter fun p =>
    decide (at_ - 179 ≤ p.2) && decide (p.2 ≤ at_) && p.1 == uid).length

/-- Generalisation of the window count to an arbitrary closed interval
`[lo, hi]` over a plain row list, for induction;
`presence_count_180 l uid a = countRows l.presence uid (a - 179) a`. -/
def countRows (rows : List (Nat × Int)) (uid : Nat) (lo hi : Int) : Nat :=
  (rows.filter fun p =>
    decide (lo ≤ p.2) && decide (p.2 ≤ hi) && p.1 == uid).length

/-- The dates (with multiplicity) of the user's presence rows inside the
180-day window ending at `at_` — the rows returned by the `SELECT` in
`presence_180`, before ordering. -/
def window_rows (l : Ledger) (uid : Nat) (at_ : Int) : List Int :=
  (l.presence.filter fun p =>
    decide (at_ - 179 ≤ p.2) && decide (p.2 ≤ at_) && p.1 == uid).map Prod.snd

/-- Python-`dict` insertion on an association list: overwriting an
existing key keeps its position, a new key goes to the end. -/
def dictInsert (kv : Int × Nat) : List (Int × Nat) → List (Int × Nat)
  | [] => [kv]
  | x :: rest => if x.1 = kv.1 then kv :: rest else x :: dictInsert kv rest

/-- The accumulation loop of `presence_180` (schengen.py, lines 114-118):
walk the window's rows in ascending date order, incrementing `days` for
each row and writing `response[date] = days`. -/
def hist_go : List Int → List (Int × Nat) → Nat → List (Int × Nat)
  | [], resp, _ => resp
  | d :: ds, resp, days => hist_go ds (dictInsert (d, days + 1) resp) (days + 1)

/-- `presence_180` (schengen.py, lines 90-120): returns the date 179 days
before `at_` and the per-date cumulative day counts over the window,
most recent date first (the ascending `ORDER BY date` is modelled by an
insertion sort; the final `reversed` flips the dict's entries). -/
def presence_180 (l : Ledger) (uid : Nat) (at_ : Int) :
    Int × List (Int × Nat) :=
  let oldest_date_180 := at_ - 179
  let sortedDates := List.insertionSort (· ≤ ·) (window_rows l uid at_)
  (oldest_date_180, (hist_go sortedDates [] 0).reverse)

/-- The search loop of `find_start_date` (schengen.py, lines 134-141):
advance the candidate finish date one day at a time until
`presence_count_180 + duration ≤ 90`.  The Python loop is unbounded;
the model carries an explicit fuel and returns `none` when it is
exhausted, so termination claims become claims that some fuel
suffices. -/
def find_finish_go (l : Ledger) (uid : Nat) (duration : Nat) :
    Int → Nat → Option Int
  | _, 0 => none
  | finish, fuel + 1 =>
    if presence_count_180 l uid finish + duration ≤ 90 then some finish
    else find_finish_go l uid duration (finish + 1) fuel

/-- `find_start_date` (schengen.py, lines 123-144): anchor the search at
the day after the most recent presence plus 90 days
(`_MAX_DURATION_180_DAYS`), find the first acceptable finish date, and
return `finish - duration + 1`.  When the user has no presence rows,
`get_start` yields `None` and the Python code raises `AttributeError`
on `last_record.date`; the model returns `none` for that crash. -/
def find_start_date (l : Ledger) (uid : Nat) (duration : Nat) (fuel : Nat) :
    Option Int :=
  match get_start l uid with
  | none => none
  | some last =>
    match find_finish_go l uid duration (last + 1 + 90) fuel with
    | none => none
    | some finish => some (finish - (duration : Int) + 1)

/-- The loop body's existence check in `add_trip` (schengen.py, lines
171-176) is the same `SELECT` as `present`: a presence row with this
date and user id. -/
def add_trip_go (uid : Nat) : Ledger → Int → Nat → Nat → Ledger × Nat
  | l, _, 0, acc => (l, acc)
  | l, d, n + 1, acc =>
    if present l uid d then add_trip_go uid l (d + 1) n acc
    else add_trip_go uid ⟨l.users, l.presence ++ [(uid, d)]⟩ (d + 1) n (acc + 1)

/-- `add_trip` (schengen.py, lines 164-182): for each day from `arrival`
to `departure` inclusive, insert a presence row unless one already
exists, and return the number of rows inserted.  The `while
presence_date <= departure` loop runs `max (departure + 1 - arrival) 0`
times. -/
def add_trip (l : Ledger) (uid : Nat) (arrival departure : Int) :
    Ledger × Nat :=
  add_trip_go uid l arrival (departure + 1 - arrival).toNat 0

/-- `get_or_add_user` (schengen.py, lines 185-197): select the user by
name; when absent, insert a row whose username is the hard-coded string
"alan.christie" (a slip in the source: the requested `username` is not
used), then re-select by the requested name.  The trailing
`assert user` fails when that second select finds nothing; the model
returns `none` for the assertion failure. -/
def get_or_add_user (l : Ledger) (username : String) :
    Ledger × Option (Nat × String) :=
  match l.users.find? (fun u => u.2 == username) with
  | some u => (l, some u)
  | none =>
    let newId := ((l.users.map Prod.fst).foldr max 0) + 1
    let l' : Ledger := ⟨l.users ++ [(newId, "alan.christie")], l.presence⟩
    (l', l'.users.find? (fun u => u.2 == username))

/-- The no-duplicates invariant on a traveler's presence rows: every
reachable ledger satisfies it (the spec calls the presence relation "a
set semantically", and `add_trip` never inserts a date twice). -/
def datesNodup (l : Ledger) (uid : Nat) : Prop :=
  ((l.presence.filter fun p => p.1 == uid).map Prod.snd).Nodup

instance (l : Ledger) (uid : Nat) : Decidable (datesNodup l uid) := by
  unfold datesNodup; infer_instance

/-- `date.toordinal()`: the proleptic-Gregorian day number of a calendar
date, with 0001-01-01 ↦ 1, matching Python's `datetime.date`.  Used to
state the spec's concrete-date scenarios. -/
def toOrdinal (y : Int) (m d : Nat) : Int :=
  let y' : Int := if m ≤ 2 then y - 1 else y
  let era : Int := (if 0 ≤ y' then y' else y' - 399) / 400
  let yoe : Nat := (y' - era * 400).toNat
  let mp : Nat := (m + 9) % 12
  let doy : Nat := (153 * mp + 2) / 5 + d - 1
  let doe : Nat := yoe * 365 + yoe / 4 - yoe / 100 + doy
  era * 146097 + (doe : Int) + 719163 - 719468

/-- The dates `d, d+1, ..., d+n-1`. -/
def rangeFrom (d : Int) (n : Nat) : List Int :=
  (List.range n).map (fun i : Nat => d + (i : Int))

/-- The dates of the closed interval `[a, b]` in ascending order — the
days the `while presence_date <= departure` loop of `add_trip` visits. -/
def rangeList (a b : Int) : List Int :=
  rangeFrom a (b + 1 - a).toNat

/-- The days of `[a, b]` the user is not yet present on — the days
`add_trip` inserts rows for, in the order it inserts them. -/
def trip_new_dates (l : Ledger) (uid : Nat) (a b : Int) : List Int :=
  (rangeList a b).filter fun x => !present l uid x

/-- Pair each list element with its position counted from `k` upward. -/
def enumFrom (k : Nat) : List Int → List (Int × Nat)
  | [] => []
  | d :: ds => (d, k) :: enumFrom (k + 1) ds

/-! ## Basic lemmas about the embedding -/

theorem presence_count_180_eq_countRows (l : Ledger) (uid : Nat) (at_ : Int) :
    presence_count_180 l uid at_ = countRows l.presence uid (at_ - 179) at_ := rfl

theorem present_iff {l : Ledger} {uid : Nat} {d : Int} :
    present l uid d = true ↔ ∃ p, p ∈ l.presence ∧ p.2 = d ∧ p.1 = uid := by
  simp [present, List.length_pos_iff_exists_mem, List.mem_filter, and_assoc]

theorem rangeFrom_succ (d : Int) (n : Nat) :
    rangeFrom d (n + 1) = d :: rangeFrom (d + 1) n := by
  unfold rangeFrom
  rw [List.range_succ_eq_map, List.map_cons, List.map_map]
  refine congrArg₂ _ (by simp) (List.map_congr_left fun i _ => ?_)
  simp only [Function.comp_apply, Nat.succ_eq_add_one]
  push_cast
  ring

theorem mem_rangeFrom {d x : Int} {n : Nat} :
    x ∈ rangeFrom d n ↔ d ≤ x ∧ x < d + n := by
  unfold rangeFrom
  simp only [List.mem_map, List.mem_range]
  constructor
  · rintro ⟨i, hi, rfl⟩; omega
  · rintro ⟨h1, h2⟩; exact ⟨(x - d).toNat, by omega, by omega⟩

theorem mem_rangeList {a b x : Int} : x ∈ rangeList a b ↔ a ≤ x ∧ x ≤ b := by
  unfold rangeList
  rw [mem_rangeFrom]
  omega

theorem rangeFrom_nodup (d : Int) (n : Nat) : (rangeFrom d n).Nodup := by
  unfold rangeFrom
  exact List.Nodup.map (fun i j h => by omega) (List.nodup_range n)

theorem rangeList_nodup (a b : Int) : (rangeList a b).Nodup :=
  rangeFrom_nodup _ _

theorem mem_trip_new_dates {l : Ledger} {uid : Nat} {a b x : Int} :
    x ∈ trip_new_dates l uid a b ↔ a ≤ x ∧ x ≤ b ∧ present l uid x = false := by
  unfold trip_new_dates
  simp [List.mem_filter, mem_rangeList, and_assoc]

theorem trip_new_dates_nodup (l : Ledger) (uid : Nat) (a b : Int) :
    (trip_new_dates l uid a b).Nodup :=
  (rangeList_nodup a b).filter _

theorem add_trip_go_succ (uid : Nat) (l : Ledger) (d : Int) (n acc : Nat) :
    add_trip_go uid l d (n + 1) acc =
      if present l uid d then add_trip_go uid l (d + 1) n acc
      else add_trip_go uid ⟨l.users, l.presence ++ [(uid, d)]⟩ (d + 1) n (acc + 1) :=
  rfl

theorem find_finish_go_succ (l : Ledger) (uid duration : Nat) (finish : Int)
    (fuel : Nat) :
    find_finish_go l uid duration finish (fuel + 1) =
      if presence_count_180 l uid finish + duration ≤ 90 then some finish
      else find_finish_go l uid duration (finish + 1) fuel :=
  rfl

theorem present_append_right_lt (us : List (Nat × String))
    (pres extra : List (Nat × Int)) (uid : Nat) (d : Int)
    (h : ∀ q ∈ extra, q.2 < d) :
    present ⟨us, pres ++ extra⟩ uid d = present ⟨us, pres⟩ uid d := by
  have hz : (extra.filter fun p => p.2 == d && p.1 == uid) = [] := by
    rw [List.filter_eq_nil_iff]
    intro q hq
    have := h q hq
    simp only [Bool.and_eq_true, beq_iff_eq, not_and]
    intro h2
    omega
  simp [present, List.filter_append, hz]

theorem add_trip_go_spec (uid : Nat) (us : List (Nat × String))
    (pres : List (Nat × Int)) :
    ∀ (n : Nat) (d : Int) (extra : List (Nat × Int)) (acc : Nat),
      (∀ q ∈ extra, q.2 < d) →
      add_trip_go uid ⟨us, pres ++ extra⟩ d n acc =
        (⟨us, pres ++ extra ++
            ((rangeFrom d n).filter fun x => !present ⟨us, pres⟩ uid x).map
              (fun x => (uid, x))⟩,
         acc + ((rangeFrom d n).filter fun x => !present ⟨us, pres⟩ uid x).length) := by
  intro n
  induction n with
  | zero =>
    intro d extra acc _
    simp [add_trip_go, rangeFrom]
  | succ n ih =>
    intro d extra acc h
    rw [add_trip_go_succ, present_append_right_lt us pres extra uid d h,
      rangeFrom_succ, List.filter_cons]
    by_cases hpd : present ⟨us, pres⟩ uid d
    · have step := ih (d + 1) extra acc (fun q hq => by have := h q hq; omega)
      simpa [hpd] using step
    · have hlt : ∀ q ∈ extra ++ [(uid, d)], q.2 < d + 1 := by
        intro q hq
        rcases List.mem_append.1 hq with hq1 | hq2
        · have := h q hq1; omega
        · rw [List.mem_singleton] at hq2
          subst hq2
          show d < d + 1
          omega
      have step := ih (d + 1) (extra ++ [(uid, d)]) (acc + 1) hlt
      rw [show pres ++ extra ++ [(uid, d)] = pres ++ (extra ++ [(uid, d)]) from by
        simp [List.append_assoc]] at *
      rw [step]
      simp [hpd, List.append_assoc]
      omega

theorem add_trip_eq (l : Ledger) (uid : Nat) (a b : Int) :
    add_trip l uid a b =
      (⟨l.users, l.presence ++
          (trip_new_dates l uid a b).map (fun x => (uid, x))⟩,
       (trip_new_dates l uid a b).length) := by
  have h := add_trip_go_spec uid l.users l.presence (b + 1 - a).toNat a [] 0
    (by simp)
  simpa [trip_new_dates, rangeList] using h

theorem present_add_trip (l : Ledger) (uid : Nat) (a b d : Int) :
    present (add_trip l uid a b).1 uid d = true ↔
      (present l uid d = true ∨ (a ≤ d ∧ d ≤ b)) := by
  rw [add_trip_eq]
  rw [show (⟨l.users, l.presence ++
      (trip_new_dates l uid a b).map (fun x => (uid, x))⟩,
      (trip_new_dates l uid a b).length).1 = (⟨l.users, l.presence ++
      (trip_new_dates l uid a b).map (fun x => (uid, x))⟩ : Ledger) from rfl]
  rw [present_iff]
  constructor
  · rintro ⟨p, hp, hd, hu⟩
    rcases List.mem_append.1 hp with hp1 | hp2
    · exact Or.inl (present_iff.2 ⟨p, hp1, hd, hu⟩)
    · rcases List.mem_map.1 hp2 with ⟨x, hx, rfl⟩
      rcases mem_trip_new_dates.1 hx with ⟨h1, h2, _⟩
      subst hd
      exact Or.inr ⟨h1, h2⟩
  · rintro (hpres | ⟨h1, h2⟩)
    · rcases present_iff.1 hpres with ⟨p, hp, hd, hu⟩
      exact ⟨p, List.mem_append.2 (Or.inl hp), hd, hu⟩
    · by_cases hpres : present l uid d = true
      · rcases present_iff.1 hpres with ⟨p, hp, hd, hu⟩
        exact ⟨p, List.mem_append.2 (Or.inl hp), hd, hu⟩
      · refine ⟨(uid, d), List.mem_append.2 (Or.inr ?_), rfl, rfl⟩
        exact List.mem_map.2 ⟨d, mem_trip_new_dates.2
          ⟨h1, h2, Bool.not_eq_true _ ▸ hpres⟩, rfl⟩

theorem length_filter_split {α : Type} (l : List α) (p q r : α → Bool)
    (h : ∀ a ∈ l, (p a = true ↔ (q a = true ∨ r a = true)) ∧
      ¬(q a = true ∧ r a = true)) :
    (l.filter p).length = (l.filter q).length + (l.filter r).length := by
  induction l with
  | nil => rfl
  | cons a l ih =>
    have ha := h a (List.mem_cons_self a l)
    have hl := ih (fun b hb => h b (List.mem_cons_of_mem a hb))
    rw [List.filter_cons, List.filter_cons, List.filter_cons]
    cases hq : q a <;> cases hr : r a <;> cases hp : p a <;>
      simp_all <;> omega

theorem countRows_split (rows : List (Nat × Int)) (uid : Nat) {lo mid hi : Int}
    (h1 : lo ≤ mid) (h2 : mid ≤ hi + 1) :
    countRows rows uid lo hi =
      countRows rows uid lo (mid - 1) + countRows rows uid mid hi := by
  unfold countRows
  apply length_filter_split
  intro p _
  simp only [Bool.and_eq_true, decide_eq_true_eq, beq_iff_eq]
  omega

theorem nodup_mem_Icc_length_le (xs : List Int) (lo hi : Int) (hnd : xs.Nodup)
    (hmem : ∀ x ∈ xs, lo ≤ x ∧ x ≤ hi) : xs.length ≤ (hi + 1 - lo).toNat := by
  have hsub : xs.toFinset ⊆ Finset.Icc lo hi := by
    intro x hx
    rw [List.mem_toFinset] at hx
    exact Finset.mem_Icc.2 (hmem x hx)
  calc xs.length = xs.toFinset.card := (List.toFinset_card_of_nodup hnd).symm
    _ ≤ (Finset.Icc lo hi).card := Finset.card_le_card hsub
    _ = (hi + 1 - lo).toNat := Int.card_Icc lo hi

theorem uid_filter_merge (rows : List (Nat × Int)) (uid : Nat) (lo hi : Int) :
    ((rows.filter fun p => p.1 == uid).filter fun p =>
      decide (lo ≤ p.2) && decide (p.2 ≤ hi)) =
    (rows.filter fun p =>
      decide (lo ≤ p.2) && decide (p.2 ≤ hi) && p.1 == uid) := by
  rw [List.filter_filter]

theorem countRows_le_toNat (rows : List (Nat × Int)) (uid : Nat) (lo hi : Int)
    (hnd : ((rows.filter fun p => p.1 == uid).map Prod.snd).Nodup) :
    countRows rows uid lo hi ≤ (hi + 1 - lo).toNat := by
  have e1 := uid_filter_merge rows uid lo hi
  unfold countRows
  rw [← e1, ← List.length_map _ Prod.snd]
  apply nodup_mem_Icc_length_le
  · exact List.Sublist.nodup
      (List.Sublist.map Prod.snd (List.filter_sublist _)) hnd
  · intro x hx
    rcases List.mem_map.1 hx with ⟨p, hp, rfl⟩
    rcases List.mem_filter.1 hp with ⟨_, hw⟩
    simp only [Bool.and_eq_true, decide_eq_true_eq] at hw
    exact hw

theorem countRows_eq_zero_of_lt (rows : List (Nat × Int)) (uid : Nat)
    (lo hi : Int) (h : ∀ p ∈ rows, p.1 = uid → p.2 < lo) :
    countRows rows uid lo hi = 0 := by
  unfold countRows
  rw [List.length_eq_zero, List.filter_eq_nil_iff]
  intro p hp
  simp only [Bool.and_eq_true, decide_eq_true_eq, beq_iff_eq]
  intro hc
  rcases hc with ⟨⟨hx1, _⟩, hu⟩
  have := h p hp hu
  omega

theorem maxDate_eq_none_iff (xs : List Int) : maxDate xs = none ↔ xs = [] := by
  cases xs with
  | nil => simp [maxDate]
  | cons d ds =>
    simp only [maxDate]
    cases maxDate ds <;> simp

theorem le_maxDate (xs : List Int) (m : Int) (h : maxDate xs = some m) :
    ∀ x ∈ xs, x ≤ m := by
  induction xs generalizing m with
  | nil => intro x hx; simp at hx
  | cons d ds ih =>
    intro x hx
    cases hds : maxDate ds with
    | none =>
      have hnil : ds = [] := (maxDate_eq_none_iff ds).1 hds
      subst hnil
      simp only [maxDate] at h
      rcases List.mem_singleton.1 hx with rfl
      simp only [Option.some.injEq] at h
      omega
    | some m' =>
      simp only [maxDate, hds, Option.some.injEq] at h
      subst h
      rcases List.mem_cons.1 hx with rfl | hx'
      · exact le_max_left _ _
      · exact le_trans (ih m' hds x hx') (le_max_right _ _)

theorem get_start_le (l : Ledger) (uid : Nat) (last : Int)
    (h : get_start l uid = some last) :
    ∀ p ∈ l.presence, p.1 = uid → p.2 ≤ last := by
  intro p hp hu
  apply le_maxDate _ _ h
  exact List.mem_map.2 ⟨p, List.mem_filter.2 ⟨hp, by simp [hu]⟩, rfl⟩

theorem get_start_isSome (l : Ledger) (uid : Nat)
    (h : ∃ p ∈ l.presence, p.1 = uid) :
    ∃ last, get_start l uid = some last := by
  rcases h with ⟨p, hp, hu⟩
  unfold get_start
  cases hmd : maxDate ((l.presence.filter fun p => p.1 == uid).map Prod.snd) with
  | none =>
    exfalso
    have hnil := (maxDate_eq_none_iff _).1 hmd
    have hmem : p.2 ∈ (l.presence.filter fun p => p.1 == uid).map Prod.snd :=
      List.mem_map.2 ⟨p, List.mem_filter.2 ⟨hp, by simp [hu]⟩, rfl⟩
    rw [hnil] at hmem
    simp at hmem
  | some m => exact ⟨m, rfl⟩

/-! ## Claims -/

/-- C10: calling `add_trip` with `arrival` strictly after `departure`
performs no insertion, leaves the ledger unchanged and returns 0 — the
`while` loop body never runs and nothing raises. -/
theorem c10_add_trip_inverted_range (l : Ledger) (uid : Nat)
    (arrival departure : Int) (h : departure < arrival) :
    add_trip l uid arrival departure = (l, 0) := by
  unfold add_trip
  rw [show (departure + 1 - arrival).toNat = 0 from by omega]
  rfl

/-- Witness for C10 at a concrete input: arrival 5, departure 3. -/
theorem c10_witness :
    (3 : Int) < 5 ∧
      add_trip ⟨[(1, "alan.christie")], [(1, 0)]⟩ 1 5 3 =
        (⟨[(1, "alan.christie")], [(1, 0)]⟩, 0) :=
  ⟨by decide, c10_add_trip_inverted_range ⟨[(1, "alan.christie")], [(1, 0)]⟩ 1 5 3
    (by decide)⟩

/-- C7 (code bug): `get_or_add_user` on a fresh ledger with the name
"bob" inserts a user row with the hard-coded name "alan.christie"
instead, and its final `assert user` then fails (modelled as `none`),
so no traveler named "bob" exists and no id for it is returned. -/
theorem c7_get_or_add_user_wrong_name :
    (get_or_add_user ⟨[], []⟩ "bob").2 = none ∧
      (get_or_add_user ⟨[], []⟩ "bob").1.users = [(1, "alan.christie")] := by
  constructor <;> rfl

/-- C3 (code bug): on a ledger where the traveler has no presence rows,
`get_start` yields no row and `find_start_date` dereferences it
(`last_record.date`), raising `AttributeError` — modelled as `none` —
for every duration and fuel, instead of anchoring at today and
returning today's date as the spec and the repository's own test
expect. -/
theorem c3_find_start_date_no_history_crashes (duration fuel : Nat) :
    find_start_date ⟨[(1, "alan.christie")], []⟩ 1 duration fuel = none := rfl

/-- C2 counterexample: ledger with a single presence day 0 for traveler
1 and duration 1.  The first probe succeeds, yet the returned start is
day 91, not day 1 (the day after the most recent presence). -/
theorem c2_counterexample :
    presence_count_180 ⟨[], [(1, 0)]⟩ 1 (0 + 1 + 90) + 1 ≤ 90 ∧
      find_start_date ⟨[], [(1, 0)]⟩ 1 1 1 = some 91 ∧
      (91 : Int) ≠ 0 + 1 := by
  refine ⟨by decide, by decide, by decide⟩

/-- C2 amended: when the very first probe succeeds — the presence count
at the initial finish anchor `last + 91` plus `duration` is at most
90 — `find_start_date` returns `last + 92 - duration` (the initial
anchor minus the duration plus one), not the day after the most recent
presence. -/
theorem c2_first_probe_amended (l : Ledger) (uid duration fuel : Nat)
    (last : Int) (hlast : get_start l uid = some last) (hfuel : 1 ≤ fuel)
    (hprobe : presence_count_180 l uid (last + 1 + 90) + duration ≤ 90) :
    find_start_date l uid duration fuel =
      some (last + 92 - (duration : Int)) := by
  obtain ⟨f, rfl⟩ : ∃ f, fuel = f + 1 := ⟨fuel - 1, by omega⟩
  simp only [find_start_date, hlast]
  rw [find_finish_go_succ, if_pos hprobe]
  show some (last + 1 + 90 - (duration : Int) + 1) =
    some (last + 92 - (duration : Int))
  congr 1
  ring

/-- Witness for C2's amended theorem: single presence day 0, duration 1,
fuel 1; the result is day 91 = 0 + 92 - 1. -/
theorem c2_amended_witness :
    get_start ⟨[], [(1, 0)]⟩ 1 = some 0 ∧ 1 ≤ 1 ∧
      presence_count_180 ⟨[], [(1, 0)]⟩ 1 (0 + 1 + 90) + 1 ≤ 90 ∧
      find_start_date ⟨[], [(1, 0)]⟩ 1 1 1 = some (0 + 92 - (1 : Int)) :=
  ⟨by decide, le_refl 1, by decide,
    c2_first_probe_amended ⟨[], [(1, 0)]⟩ 1 1 1 0 (by decide) (le_refl 1)
      (by decide)⟩

/-- C5: for `arrival ≤ departure`, `add_trip` appends exactly one
presence row per day of `[arrival, departure]` that is not already
present (`trip_new_dates`, which is duplicate-free and holds exactly
those days), afterwards the user is present on every day of the range,
and the returned integer is the number of days of the range that were
not present before. -/
theorem c5_record_trip (l : Ledger) (uid : Nat) (a b : Int) (h : a ≤ b) :
    (add_trip l uid a b).1.presence =
        l.presence ++ (trip_new_dates l uid a b).map (fun x => (uid, x)) ∧
      (∀ x : Int, x ∈ trip_new_dates l uid a b ↔
        (a ≤ x ∧ x ≤ b ∧ present l uid x = false)) ∧
      (trip_new_dates l uid a b).Nodup ∧
      (∀ d : Int, a ≤ d → d ≤ b →
        present (add_trip l uid a b).1 uid d = true) ∧
      (add_trip l uid a b).2 =
        ((Finset.Icc a b).filter fun d => ¬present l uid d = true).card := by
  refine ⟨?_, fun x => mem_trip_new_dates, trip_new_dates_nodup l uid a b,
    fun d h1 h2 => (present_add_trip l uid a b d).2 (Or.inr ⟨h1, h2⟩), ?_⟩
  · rw [add_trip_eq]
  · rw [add_trip_eq]
    show (trip_new_dates l uid a b).length = _
    rw [← List.toFinset_card_of_nodup (trip_new_dates_nodup l uid a b)]
    congr 1
    ext x
    simp only [List.mem_toFinset, mem_trip_new_dates, Finset.mem_filter,
      Finset.mem_Icc, Bool.not_eq_true]
    tauto

/-- Witness for C5, the spec's Scenario A: a fresh ledger, trip from
2022-11-04 to 2022-11-21; 18 rows are added, the count at the
departure date is 18, and every day of the range is present. -/
theorem c5_witness :
    toOrdinal 2022 11 4 ≤ toOrdinal 2022 11 21 ∧
      (add_trip ⟨[(1, "A")], []⟩ 1 (toOrdinal 2022 11 4)
        (toOrdinal 2022 11 21)).2 = 18 ∧
      presence_count_180 (add_trip ⟨[(1, "A")], []⟩ 1 (toOrdinal 2022 11 4)
        (toOrdinal 2022 11 21)).1 1 (toOrdinal 2022 11 21) = 18 ∧
      ∀ d : Int, toOrdinal 2022 11 4 ≤ d → d ≤ toOrdinal 2022 11 21 →
        present (add_trip ⟨[(1, "A")], []⟩ 1 (toOrdinal 2022 11 4)
          (toOrdinal 2022 11 21)).1 1 d = true :=
  ⟨by decide, by decide, by decide,
    (c5_record_trip ⟨[(1, "A")], []⟩ 1 (toOrdinal 2022 11 4)
      (toOrdinal 2022 11 21) (by decide)).2.2.2.1⟩

/-- C6: recording the same trip twice is idempotent — the second call
adds 0 days and leaves the ledger (hence every 180-day presence count)
unchanged. -/
theorem c6_record_trip_idempotent (l : Ledger) (uid : Nat) (a b : Int) :
    add_trip (add_trip l uid a b).1 uid a b = ((add_trip l uid a b).1, 0) ∧
      ∀ at_ : Int,
        presence_count_180 (add_trip (add_trip l uid a b).1 uid a b).1 uid at_ =
          presence_count_180 (add_trip l uid a b).1 uid at_ := by
  have key : trip_new_dates (add_trip l uid a b).1 uid a b = [] := by
    unfold trip_new_dates
    rw [List.filter_eq_nil_iff]
    intro x hx
    rw [mem_rangeList] at hx
    have hp : present (add_trip l uid a b).1 uid x = true :=
      (present_add_trip l uid a b x).2 (Or.inr hx)
    simp [hp]
  have h2 := add_trip_eq (add_trip l uid a b).1 uid a b
  rw [key] at h2
  simp only [List.map_nil, List.append_nil, List.length_nil] at h2
  exact ⟨h2, fun at_ => by rw [h2]⟩

/-- C4: under the set-semantics invariant on the traveler's rows, the
180-day window count equals the number of dates of `[A-179, A]` on
which `present` holds. -/
theorem c4_window_consistency (l : Ledger) (uid : Nat) (A : Int)
    (hnd : datesNodup l uid) :
    presence_count_180 l uid A =
      ((Finset.Icc (A - 179) A).filter fun d => present l uid d = true).card := by
  have e1 := uid_filter_merge l.presence uid (A - 179) A
  rw [presence_count_180_eq_countRows]
  unfold countRows
  rw [← e1, ← List.length_map _ Prod.snd]
  have hndxs : (((l.presence.filter fun p => p.1 == uid).filter fun p =>
      decide (A - 179 ≤ p.2) && decide (p.2 ≤ A)).map Prod.snd).Nodup :=
    List.Sublist.nodup (List.Sublist.map Prod.snd (List.filter_sublist _)) hnd
  rw [← List.toFinset_card_of_nodup hndxs]
  congr 1
  ext x
  simp only [List.mem_toFinset, List.mem_map, List.mem_filter,
    Finset.mem_filter, Finset.mem_Icc, Bool.and_eq_true, decide_eq_true_eq,
    beq_iff_eq, present_iff]
  constructor
  · rintro ⟨p, ⟨⟨hp, hu⟩, hw1, hw2⟩, rfl⟩
    exact ⟨⟨hw1, hw2⟩, p, hp, rfl, hu⟩
  · rintro ⟨⟨hw1, hw2⟩, p, hp, hd, hu⟩
    exact ⟨p, ⟨⟨hp, hu⟩, by omega, by omega⟩, hd⟩

/-- Witness for C4 at a concrete ledger (traveler 1 present on days 3
and 5, another traveler on day 3) and anchor 100. -/
theorem c4_witness :
    datesNodup ⟨[], [(1, 3), (1, 5), (2, 3)]⟩ 1 ∧
      presence_count_180 ⟨[], [(1, 3), (1, 5), (2, 3)]⟩ 1 100 =
        ((Finset.Icc (100 - 179) 100).filter fun d =>
          present ⟨[], [(1, 3), (1, 5), (2, 3)]⟩ 1 d = true).card :=
  ⟨by decide, c4_window_consistency ⟨[], [(1, 3), (1, 5), (2, 3)]⟩ 1 100
    (by decide)⟩

theorem find_finish_go_of_accepted (l : Ledger) (uid duration : Nat) :
    ∀ (n : Nat) (f : Int),
      presence_count_180 l uid (f + (n : Int)) + duration ≤ 90 →
      ∃ F, find_finish_go l uid duration f (n + 1) = some F := by
  intro n
  induction n with
  | zero =>
    intro f h
    simp only [Nat.cast_zero, add_zero] at h
    exact ⟨f, by rw [find_finish_go_succ, if_pos h]⟩
  | succ n ih =>
    intro f h
    by_cases hc : presence_count_180 l uid f + duration ≤ 90
    · exact ⟨f, by rw [find_finish_go_succ, if_pos hc]⟩
    · have h' : presence_count_180 l uid ((f + 1) + (n : Int)) + duration ≤ 90 := by
        have e : (f + 1) + (n : Int) = f + ((n + 1 : Nat) : Int) := by
          push_cast; ring
        rw [e]; exact h
      rcases ih (f + 1) h' with ⟨F, hF⟩
      exact ⟨F, by rw [find_finish_go_succ, if_neg hc]; exact hF⟩

theorem find_finish_go_some (l : Ledger) (uid duration : Nat) :
    ∀ (fuel : Nat) (f F : Int),
      find_finish_go l uid duration f fuel = some F →
      f ≤ F ∧ presence_count_180 l uid F + duration ≤ 90 := by
  intro fuel
  induction fuel with
  | zero => intro f F h; simp [find_finish_go] at h
  | succ n ih =>
    intro f F h
    rw [find_finish_go_succ] at h
    by_cases hc : presence_count_180 l uid f + duration ≤ 90
    · rw [if_pos hc] at h
      injection h with h'
      subst h'
      exact ⟨le_refl _, hc⟩
    · rw [if_neg hc] at h
      rcases ih (f + 1) F h with ⟨h1, h2⟩
      exact ⟨by omega, h2⟩

/-- C8: for every ledger in which the traveler has at least one presence
row and every duration in [1, 90], the forward one-day-at-a-time search
of `find_start_date` terminates: some fuel makes it return a date (the
window eventually rolls clear of all recorded presence, so a finish
date is always accepted). -/
theorem c8_search_terminates (l : Ledger) (uid duration : Nat)
    (hd1 : 1 ≤ duration) (hd90 : duration ≤ 90)
    (hne : ∃ p ∈ l.presence, p.1 = uid) :
    ∃ fuel S, find_start_date l uid duration fuel = some S := by
  rcases get_start_isSome l uid hne with ⟨last, hlast⟩
  have hle := get_start_le l uid last hlast
  have hzero : presence_count_180 l uid (last + 180) + duration ≤ 90 := by
    rw [presence_count_180_eq_countRows, countRows_eq_zero_of_lt]
    · omega
    · intro p hp hu
      have := hle p hp hu
      omega
  have hacc : presence_count_180 l uid
      ((last + 1 + 90) + ((89 : Nat) : Int)) + duration ≤ 90 := by
    have e : (last + 1 + 90) + ((89 : Nat) : Int) = last + 180 := by
      push_cast; ring
    rw [e]; exact hzero
  rcases find_finish_go_of_accepted l uid duration 89 (last + 1 + 90) hacc with
    ⟨F, hF⟩
  refine ⟨90, F - (duration : Int) + 1, ?_⟩
  simp only [find_start_date, hlast, hF]

/-- Witness for C8: traveler 1 present on day 0, duration 90. -/
theorem c8_witness :
    (1 ≤ 90 ∧ (∃ p ∈ ([(1, 0)] : List (Nat × Int)), p.1 = 1)) ∧
      ∃ fuel S, find_start_date ⟨[], [(1, 0)]⟩ 1 90 fuel = some S :=
  ⟨⟨by decide, by decide⟩,
    c8_search_terminates ⟨[], [(1, 0)]⟩ 1 90 (by decide) (by decide)
      (by decide)⟩

/-- C1: if `find_start_date` returns `S` for a duration in [1, 90] (under
the set-semantics invariant on the traveler's rows), then after
recording the trip `[S, S + duration - 1]` the 180-day presence count
is at most 90 at every day `A` of the trip — in particular at the
finish date `F = S + duration - 1`. -/
theorem c1_trip_keeps_cap (l : Ledger) (uid duration fuel : Nat) (S A : Int)
    (hnd : datesNodup l uid) (hd1 : 1 ≤ duration) (hd90 : duration ≤ 90)
    (hS : find_start_date l uid duration fuel = some S)
    (hA1 : S ≤ A) (hA2 : A ≤ S + (duration : Int) - 1) :
    presence_count_180
      (add_trip l uid S (S + (duration : Int) - 1)).1 uid A ≤ 90 := by
  unfold find_start_date at hS
  cases hlast : get_start l uid with
  | none => rw [hlast] at hS; simp at hS
  | some last =>
    rw [hlast] at hS
    have hS' : (match find_finish_go l uid duration (last + 1 + 90) fuel with
        | none => none
        | some finish => some (finish - (duration : Int) + 1)) = some S := hS
    cases hgo : find_finish_go l uid duration (last + 1 + 90) fuel with
    | none => rw [hgo] at hS'; simp at hS'
    | some F =>
      rw [hgo] at hS'
      have hSF : F - (duration : Int) + 1 = S := Option.some.inj hS'
      rcases find_finish_go_some l uid duration fuel (last + 1 + 90) F hgo with
        ⟨hfF, hacc⟩
      have hle := get_start_le l uid last hlast
      have hFS : S + (duration : Int) - 1 = F := by omega
      rw [hFS]
      rw [presence_count_180_eq_countRows, add_trip_eq]
      show countRows
        (l.presence ++ (trip_new_dates l uid S F).map (fun x => (uid, x)))
        uid (A - 179) A ≤ 90
      have hAF : A ≤ F := by omega
      have happ : countRows
          (l.presence ++ (trip_new_dates l uid S F).map (fun x => (uid, x)))
          uid (A - 179) A =
          countRows l.presence uid (A - 179) A +
            countRows ((trip_new_dates l uid S F).map (fun x => (uid, x)))
              uid (A - 179) A := by
        unfold countRows
        rw [List.filter_append, List.length_append]
      have hsplitA : countRows l.presence uid (A - 179) A =
          countRows l.presence uid (A - 179) (S - 1) +
            countRows l.presence uid S A :=
        countRows_split l.presence uid (by omega) (by omega)
      have hSA0 : countRows l.presence uid S A = 0 :=
        countRows_eq_zero_of_lt l.presence uid S A
          (fun p hp hu => by have := hle p hp hu; omega)
      have hsplitB : countRows l.presence uid (A - 179) (S - 1) =
          countRows l.presence uid (A - 179) (F - 179 - 1) +
            countRows l.presence uid (F - 179) (S - 1) := by
        have e := @countRows_split l.presence uid (A - 179) (F - 179) (S - 1)
          (by omega) (by omega)
        simpa using e
      have hbound1 : countRows l.presence uid (A - 179) (F - 179 - 1) ≤
          ((F - 179 - 1) + 1 - (A - 179)).toNat :=
        countRows_le_toNat l.presence uid _ _ hnd
      have hsplitF : countRows l.presence uid (F - 179) F =
          countRows l.presence uid (F - 179) (S - 1) +
            countRows l.presence uid S F :=
        countRows_split l.presence uid (by omega) (by omega)
      rw [presence_count_180_eq_countRows] at hacc
      have hnew : countRows ((trip_new_dates l uid S F).map (fun x => (uid, x)))
          uid (A - 179) A ≤ (A + 1 - S).toNat := by
        unfold countRows
        rw [List.filter_map, List.length_map]
        apply nodup_mem_Icc_length_le _ S A
        · exact List.Sublist.nodup (List.filter_sublist _)
            (trip_new_dates_nodup l uid S F)
        · intro x hx
          rcases List.mem_filter.1 hx with ⟨hmem, hpred⟩
          rcases mem_trip_new_dates.1 hmem with ⟨hx1, _, _⟩
          simp only [Function.comp_apply, Bool.and_eq_true,
            decide_eq_true_eq] at hpred
          exact ⟨hx1, hpred.1.2⟩
      omega

/-- Witness for C1: traveler 1 present on day 0, duration 1, fuel 1;
`find_start_date` returns day 91 and the count after recording the
one-day trip at its only day 91 stays at most 90. -/
theorem c1_witness :
    datesNodup ⟨[], [(1, 0)]⟩ 1 ∧ 1 ≤ 1 ∧ 1 ≤ 90 ∧
      find_start_date ⟨[], [(1, 0)]⟩ 1 1 1 = some 91 ∧
      (91 : Int) ≤ 91 ∧ (91 : Int) ≤ 91 + ((1 : Nat) : Int) - 1 ∧
      presence_count_180
        (add_trip ⟨[], [(1, 0)]⟩ 1 91 (91 + ((1 : Nat) : Int) - 1)).1 1 91 ≤ 90 :=
  ⟨by decide, by decide, by decide, by decide, by decide, by decide,
    c1_trip_keeps_cap ⟨[], [(1, 0)]⟩ 1 1 1 91 91 (by decide) (by decide)
      (by decide) (by decide) (by decide) (by decide)⟩

theorem dictInsert_of_not_mem (kv : Int × Nat) (resp : List (Int × Nat))
    (h : kv.1 ∉ resp.map Prod.fst) : dictInsert kv resp = resp ++ [kv] := by
  induction resp with
  | nil => rfl
  | cons x rest ih =>
    simp only [List.map_cons, List.mem_cons] at h
    push_neg at h
    rw [show dictInsert kv (x :: rest) =
        if x.1 = kv.1 then kv :: rest else x :: dictInsert kv rest from rfl]
    rw [if_neg (fun e => h.1 e.symm), ih h.2]
    rfl

theorem hist_go_eq : ∀ (ds : List Int) (resp : List (Int × Nat)) (days : Nat),
    ds.Nodup → (∀ d ∈ ds, d ∉ resp.map Prod.fst) →
    hist_go ds resp days = resp ++ enumFrom (days + 1) ds := by
  intro ds
  induction ds with
  | nil => intro resp days _ _; simp [hist_go, enumFrom]
  | cons d ds ih =>
    intro resp days hnd hdisj
    rw [show hist_go (d :: ds) resp days =
        hist_go ds (dictInsert (d, days + 1) resp) (days + 1) from rfl]
    rw [dictInsert_of_not_mem (d, days + 1) resp
      (hdisj d (List.mem_cons_self d ds))]
    have hdisj' : ∀ x ∈ ds, x ∉ (resp ++ [(d, days + 1)]).map Prod.fst := by
      intro x hx
      rw [List.map_append, List.mem_append]
      push_neg
      refine ⟨hdisj x (List.mem_cons_of_mem d hx), ?_⟩
      simp only [List.map_cons, List.map_nil, List.mem_singleton]
      intro e
      subst e
      exact (List.nodup_cons.1 hnd).1 hx
    rw [ih (resp ++ [(d, days + 1)]) (days + 1) hnd.of_cons hdisj']
    simp [enumFrom, List.append_assoc]

theorem enumFrom_length (k : Nat) (ds : List Int) :
    (enumFrom k ds).length = ds.length := by
  induction ds generalizing k with
  | nil => rfl
  | cons d ds ih => simp [enumFrom, ih]

theorem enumFrom_map_fst (k : Nat) (ds : List Int) :
    (enumFrom k ds).map Prod.fst = ds := by
  induction ds generalizing k with
  | nil => rfl
  | cons d ds ih => simp [enumFrom, ih]

theorem enumFrom_getElem_snd :
    ∀ (ds : List Int) (k i : Nat) (h : i < (enumFrom k ds).length),
      ((enumFrom k ds).get ⟨i, h⟩).2 = k + i := by
  intro ds
  induction ds with
  | nil => intro k i h; simp [enumFrom] at h
  | cons d ds ih =>
    intro k i h
    cases i with
    | zero => rfl
    | succ i =>
      have h' : i < (enumFrom (k + 1) ds).length := by
        simpa [enumFrom] using h
      have := ih (k + 1) i h'
      simp only [enumFrom, List.get_cons_succ]
      rw [this]
      omega

theorem enumFrom_reverse_get_snd (ds : List Int) (k i : Nat)
    (h : i < (enumFrom k ds).reverse.length) :
    (((enumFrom k ds).reverse).get ⟨i, h⟩).2 = k + (ds.length - 1 - i) := by
  rw [List.get_eq_getElem, List.getElem_reverse]
  have hlen : (enumFrom k ds).length = ds.length := enumFrom_length k ds
  have hb : (enumFrom k ds).length - 1 - i < (enumFrom k ds).length := by
    rw [List.length_reverse] at h
    omega
  rw [← List.get_eq_getElem _ ⟨(enumFrom k ds).length - 1 - i, hb⟩]
  rw [enumFrom_getElem_snd ds k _ hb, hlen]

theorem mem_window_rows {l : Ledger} {uid : Nat} {A x : Int} :
    x ∈ window_rows l uid A ↔
      A - 179 ≤ x ∧ x ≤ A ∧ present l uid x = true := by
  unfold window_rows
  simp only [List.mem_map, List.mem_filter, Bool.and_eq_true,
    decide_eq_true_eq, beq_iff_eq, present_iff]
  constructor
  · rintro ⟨p, ⟨hp, ⟨⟨h1, h2⟩, hu⟩⟩, rfl⟩
    exact ⟨h1, h2, ⟨p, hp, rfl, hu⟩⟩
  · rintro ⟨h1, h2, p, hp, hd, hu⟩
    exact ⟨p, ⟨hp, ⟨⟨by omega, by omega⟩, hu⟩⟩, hd⟩

theorem window_rows_nodup (l : Ledger) (uid : Nat) (A : Int)
    (hnd : datesNodup l uid) : (window_rows l uid A).Nodup := by
  have e1 := uid_filter_merge l.presence uid (A - 179) A
  unfold window_rows
  rw [← e1]
  exact List.Sublist.nodup
    (List.Sublist.map Prod.snd (List.filter_sublist _)) hnd

/-- C9: under the set-semantics invariant, `presence_180` returns the
window start `A - 179` together with one entry per present date of the
window, ordered strictly most-recent-first, and the cumulative index of
the entry at position `i` (0-based from the most recent) is
`length - i` — so the k-th oldest present date carries index k and
consecutive entries differ by exactly 1. -/
theorem c9_histogram_detail (l : Ledger) (uid : Nat) (A : Int)
    (hnd : datesNodup l uid) :
    (presence_180 l uid A).1 = A - 179 ∧
      List.Sorted (· > ·) ((presence_180 l uid A).2.map Prod.fst) ∧
      (∀ x : Int, x ∈ (presence_180 l uid A).2.map Prod.fst ↔
        (A - 179 ≤ x ∧ x ≤ A ∧ present l uid x = true)) ∧
      ∀ (i : Nat) (h : i < (presence_180 l uid A).2.length),
        ((presence_180 l uid A).2.get ⟨i, h⟩).2 =
          (presence_180 l uid A).2.length - i := by
  have hwnd := window_rows_nodup l uid A hnd
  have hperm := List.perm_insertionSort (· ≤ ·) (window_rows l uid A)
  have hnds : (List.insertionSort (· ≤ ·) (window_rows l uid A)).Nodup :=
    hperm.nodup_iff.2 hwnd
  have hsorted := List.sorted_insertionSort (· ≤ ·) (window_rows l uid A)
  have hlt := List.Sorted.lt_of_le hsorted hnds
  have hent : (presence_180 l uid A).2 =
      (enumFrom 1 (List.insertionSort (· ≤ ·) (window_rows l uid A))).reverse := by
    show (hist_go (List.insertionSort (· ≤ ·) (window_rows l uid A)) [] 0).reverse
      = _
    rw [hist_go_eq _ [] 0 hnds (by intro d _; simp)]
    rw [List.nil_append]
  refine ⟨rfl, ?_, ?_, ?_⟩
  · rw [hent, List.map_reverse, enumFrom_map_fst]
    exact List.pairwise_reverse.2 hlt
  · intro x
    rw [hent, List.map_reverse, enumFrom_map_fst, List.mem_reverse,
      hperm.mem_iff, mem_window_rows]
  · intro i h
    have hlen : (presence_180 l uid A).2.length =
        (List.insertionSort (· ≤ ·) (window_rows l uid A)).length := by
      rw [hent, List.length_reverse, enumFrom_length]
    rw [List.get_of_eq hent ⟨i, h⟩]
    rw [enumFrom_reverse_get_snd]
    have hi : i < (List.insertionSort (· ≤ ·) (window_rows l uid A)).length := by
      omega
    simp only [Fin.val_mk]
    omega

/-- Witness for C9 at a concrete ledger (traveler 1 present on days 3,
5, 4 and 100, a second traveler on day 4) and anchor 101. -/
theorem c9_witness :
    datesNodup ⟨[], [(1, 5), (1, 3), (1, 4), (2, 4), (1, 100)]⟩ 1 ∧
      (∀ x : Int,
        x ∈ (presence_180 ⟨[], [(1, 5), (1, 3), (1, 4), (2, 4), (1, 100)]⟩
          1 101).2.map Prod.fst ↔
        (101 - 179 ≤ x ∧ x ≤ 101 ∧
          present ⟨[], [(1, 5), (1, 3), (1, 4), (2, 4), (1, 100)]⟩ 1 x = true)) :=
  ⟨by decide,
    (c9_histogram_detail ⟨[], [(1, 5), (1, 3), (1, 4), (2, 4), (1, 100)]⟩ 1 101
      (by decide)).2.2.1⟩
